import Mathlib

/-!
Verification of the GrafanaGridder layout engine
(`src/grafana_gridder/grafana_gridder.py`).

The Python source is shallowly embedded below:

* Python `int` is modelled by `Int` (unbounded, signed); quantities the
  source keeps non-negative (weights, allocated widths) use `Nat`.
* `floor(total_width / total_sum * elem)` is modelled by exact rational
  arithmetic, which for naturals equals floor division
  `total_width * elem / total_sum`; IEEE double round-off (irrelevant at
  the magnitudes of grid weights) is not modelled.  Python's
  `ZeroDivisionError` on an empty weight list is likewise outside the
  model (Lean's `x / 0 = 0`); every theorem about the allocator restricts
  to non-empty inputs.
* Python `assert` failures (and the `IndexError` raised by `layout[0]`
  on an empty layout) are modelled by `Option`: `none` means the Python
  call raises, `some` carries the resulting state.
* Panels are external objects whose only relevant state is the mutable
  `gridPos` rectangle the engine writes; a group's effect on its panel
  sequence is therefore modelled as the list of rectangles it assigns,
  in panel order.
-/

/-- `_MAX_WIDTH = 24`, the fixed grid width. -/
def MAX_WIDTH : Nat := 24

/-- A `grafanalib` `GridPos`: the rectangle `{x, y, w, h}` the engine
writes into each panel. -/
structure GridPos where
  x : Int
  y : Int
  w : Int
  h : Int
deriving DecidableEq, Repr

/-- The `PanelSize` enum: relative widths of panels on a row. -/
inductive PanelSize where
  | SMALL
  | MEDIUM
  | LARGE
  | XLARGE
deriving DecidableEq, Repr

/-- `PanelSize.value`: `SMALL = 1`, `MEDIUM = 2`, `LARGE = 3`, `XLARGE = 4`. -/
def PanelSize.value : PanelSize → Nat
  | .SMALL => 1
  | .MEDIUM => 2
  | .LARGE => 3
  | .XLARGE => 4

/-- Line 96 of the source:
`result = [max(1, floor(total_width / total_sum * elem)) for elem in arr]`,
with the float product modelled exactly (floor division on naturals). -/
def rawWidths (arr : List Nat) (totalWidth : Nat) : List Nat :=
  arr.map (fun elem => max 1 (totalWidth * elem / arr.sum))

/-- Line 97 of the source: `delta = total_width - sum(result)` (a Python
`int`, so it may be negative; hence `Int`). -/
def widthDelta (arr : List Nat) (totalWidth : Nat) : Int :=
  (totalWidth : Int) - ((rawWidths arr totalWidth).sum : Int)

/-- The strict total order in which line 99 of the source,
`idx = sorted(range(len(result)), key=lambda i: result[i], reverse=True)`,
arranges the indices: Python's sort is stable and `reverse=True` reverses
the key comparison only, so index `i` precedes index `j` exactly when
`result[i] > result[j]`, or the values tie and `i < j` (original order). -/
def idxBefore (result : List Nat) (i j : Nat) : Bool :=
  decide (result.getD j 0 < result.getD i 0 ∨
    (result.getD i 0 = result.getD j 0 ∧ i < j))

/-- Insert an index into an already ordered list of indices (helper for
`sortIndices`). -/
def insertSorted (lt : Nat → Nat → Bool) (i : Nat) : List Nat → List Nat
  | [] => [i]
  | j :: rest => if lt i j then i :: j :: rest else j :: insertSorted lt i rest

/-- Insertion sort of a list of indices by the strict order `lt`.  Because
`idxBefore result` is a strict *total* order (descending value, index as
tie-break), its sorted output is unique, so this agrees with Python's
stable `sorted(..., reverse=True)` on line 99. -/
def sortIndices (lt : Nat → Nat → Bool) : List Nat → List Nat
  | [] => []
  | i :: rest => insertSorted lt i (sortIndices lt rest)

/-- `PanelGroup._create_width_units_array` (lines 93–102 of the source):
floor-allocate proportional widths clamped to at least 1, then, when the
shortfall `delta` is positive, add one unit to each of the first `delta`
indices in the descending stable order (`for i in range(delta):
result[idx[i]] += 1`, modelled as a fold of point updates over
`idx.take delta`). -/
def createWidthUnitsArray (arr : List Nat) (totalWidth : Nat) : List Nat :=
  let result := rawWidths arr totalWidth
  let delta : Int := (totalWidth : Int) - (result.sum : Int)
  if 0 < delta then
    let idx := sortIndices (idxBefore result) (List.range result.length)
    (idx.take delta.toNat).foldl (fun res j => res.set j (res.getD j 0 + 1)) result
  else result

/-- The `layout` argument of `PanelGroup.__init__`: either a flat list of
relative sizes or an explicit list of rows
(`Union[List[List[PanelSize]], List[PanelSize]]`, discriminated at line 61
by `isinstance(layout[0], list)`). -/
inductive LayoutSpec where
  | flat (l : List PanelSize) : LayoutSpec
  | nested (rows : List (List PanelSize)) : LayoutSpec
deriving DecidableEq

/-- The `row_heights` argument: a single height applied to every row or an
explicit per-row list (`Union[List[int], int]`). -/
inductive RowHeightsSpec where
  | single (h : Int) : RowHeightsSpec
  | perRow (hs : List Int) : RowHeightsSpec
deriving DecidableEq

/-- The state of a constructed `PanelGroup`: the normalized `_layout`,
the normalized `row_heights`, the row header's assigned rectangle (if a
`row` was supplied), `_y`, the precomputed `height`, and the rectangles
assigned to the panel sequence, in panel order. -/
structure PanelGroup where
  layout : List (List PanelSize)
  rowHeights : List Int
  row : Option GridPos
  y : Int
  height : Int
  panels : List GridPos
deriving DecidableEq

/-- Line 61 of the source:
`self._layout = layout if isinstance(layout[0], list) else [layout] * (len(panels) // len(layout))`.
An empty list raises `IndexError` at `layout[0]` (and `layout is None`
fails the line-60 assert), modelled as `none`. -/
def normalizeLayout : LayoutSpec → Nat → Option (List (List PanelSize))
  | .flat [], _ => none
  | .flat l, numPanels => some (List.replicate (numPanels / l.length) l)
  | .nested [], _ => none
  | .nested rows, _ => some rows

/-- Lines 63–67 of the source: a list of row heights must match the row
count; a bare `int` is replicated once per row. -/
def resolveRowHeights : RowHeightsSpec → Nat → Option (List Int)
  | .single h, rowCount => some (List.replicate rowCount h)
  | .perRow hs, rowCount => if hs.length = rowCount then some hs else none

/-- The inner loop of `_compute_grid_pos` (lines 86–90): place the allocated
widths left to right from abscissa `x` at ordinate `y`, each panel `h`
high, advancing `current_x` by each width. -/
def rowPositions (units : List Nat) (x y h : Int) : List GridPos :=
  match units with
  | [] => []
  | w :: ws => ⟨x, y, (w : Int), h⟩ :: rowPositions ws (x + (w : Int)) y h

/-- The outer loop of `_compute_grid_pos` (lines 82–91): for each
`(panel_sizes, row_height)` row, allocate widths with
`_create_width_units_array(values, _MAX_WIDTH)`, lay the row out at
`current_y`, then advance `current_y` by `row_height + 1`. -/
def computeRows : List (List PanelSize × Int) → Int → List GridPos
  | [], _ => []
  | (sizes, h) :: rest, y =>
    rowPositions (createWidthUnitsArray (sizes.map PanelSize.value) MAX_WIDTH) 0 y h
      ++ computeRows rest (y + h + 1)

/-- `PanelGroup.__init__` (lines 52–73) together with the
`_compute_grid_pos` it invokes (lines 75–91): validate, normalize, compute
`height`, position the optional row header at `{x:0, y:_y, w:24, h:1}`
(starting the first data row 2 units lower), and assign every panel's
rectangle.  `none` models a failed `assert` (or the empty-layout
`IndexError`). -/
def PanelGroup.make (layout : LayoutSpec) (numPanels : Nat) (y : Int)
    (rowHeights : RowHeightsSpec) (hasRow : Bool) : Option PanelGroup :=
  match normalizeLayout layout numPanels with
  | none => none
  | some rows =>
    if (rows.map List.length).sum = numPanels then
      match resolveRowHeights rowHeights rows.length with
      | none => none
      | some hs =>
        some
          { layout := rows
            rowHeights := hs
            row := if hasRow then some ⟨0, y, (MAX_WIDTH : Int), 1⟩ else none
            y := y
            height := hs.sum + hs.length + (if hasRow then 2 else 0)
            panels := computeRows (rows.zip hs) (y + (if hasRow then 2 else 0)) }
    else none

/-- The translation performed by `PanelGroup.set_y` (lines 104–112) once
its assert has passed: shift the header's and every panel's ordinate by
`y - self._y` and store the new origin. -/
def PanelGroup.setY (g : PanelGroup) (newY : Int) : PanelGroup :=
  { g with
    row := g.row.map (fun r => { r with y := r.y + (newY - g.y) })
    panels := g.panels.map (fun p => { p with y := p.y + (newY - g.y) })
    y := newY }

/-- `PanelGroup.set_y` (lines 104–112) including its line-106 assert
`y >= 0`. -/
def PanelGroup.setYChecked (g : PanelGroup) (newY : Int) : Option PanelGroup :=
  if newY < 0 then none else some (g.setY newY)

/-- The `row` header's contribution to the flattened sequence (lines
153–154: `if ... group.row is not None: panels.append(group.row)`). -/
def headerList (g : PanelGroup) : List GridPos :=
  match g.row with
  | some r => [r]
  | none => []

/-- A `PanelPositioning` child: either a `PanelGroup` or a nested
`PanelPositioning` (itself a list of children plus a stored origin). -/
inductive PTree where
  | group (g : PanelGroup) : PTree
  | node (cs : List PTree) (y : Int) : PTree

mutual

/-- `get_height`: a group returns its stored `height` (line 116); a
`PanelPositioning` sums its children's heights (line 138). -/
def PTree.height : PTree → Int
  | .group g => g.height
  | .node cs _ => heightList cs

/-- `sum(panel_group.get_height() for panel_group in ...)`. -/
def heightList : List PTree → Int
  | [] => 0
  | t :: ts => PTree.height t + heightList ts

end

mutual

/-- The effect, on a child reached at vertical cursor `y`, of the
`PanelPositioning.panels` property (lines 145–156): the first loop calls
`child.set_y(y)` and the second reads the child back.  For a `PanelGroup`
this yields its (translated) header, if any, followed by its translated
panels; for a nested `PanelPositioning` the stored origin is overwritten
with `y` and its own `panels` property recomputes from there.  `none`
models the `set_y` assert firing on a negative cursor. -/
def PTree.panelsAt : PTree → Int → Option (List GridPos)
  | .group g, y => some (headerList (g.setY y) ++ (g.setY y).panels)
  | .node cs _, y => flattenList cs y

/-- The two loops of `PanelPositioning.panels` over a suffix of the child
list, entered with vertical cursor `c`: position the child at `c`
(raising if `c < 0`), advance the cursor by the child's height, and
concatenate the children's emitted sequences in order. -/
def flattenList : List PTree → Int → Option (List GridPos)
  | [], _ => some []
  | t :: ts, c =>
    if c < 0 then none
    else
      match PTree.panelsAt t c, flattenList ts (c + PTree.height t) with
      | some ps, some rest => some (ps ++ rest)
      | _, _ => none

end

/-- The `panels` property of a `PanelPositioning` read at top level: walk
the children from the stored origin. -/
def PTree.panels : PTree → Option (List GridPos)
  | .group g => some g.panels
  | .node cs y => flattenList cs y

mutual

/-- The number of panel references a child contributes to the flattened
sequence: a group contributes its panels plus one for its row header when
present; a nested tree contributes the sum over its own children. -/
def PTree.panelTotal : PTree → Nat
  | .group g => g.panels.length + (if g.row.isSome then 1 else 0)
  | .node cs _ => panelTotalList cs

/-- Sum of `PTree.panelTotal` over a child list. -/
def panelTotalList : List PTree → Nat
  | [] => 0
  | t :: ts => PTree.panelTotal t + panelTotalList ts

end

/-! ### Lemmas about the shortfall-distribution loop -/

theorem sum_set_incr (l : List Nat) (j : Nat) (hj : j < l.length) :
    (l.set j (l.getD j 0 + 1)).sum = l.sum + 1 := by
  induction l generalizing j with
  | nil => simp at hj
  | cons a rest ih =>
    cases j with
    | zero => simp only [List.set_cons_zero, List.getD_cons_zero, List.sum_cons]; omega
    | succ j =>
      have hj' : j < rest.length := by simpa using hj
      simp only [List.set_cons_succ, List.getD_cons_succ, List.sum_cons, ih j hj']
      omega

theorem foldIncr_length (js : List Nat) (res : List Nat) :
    (js.foldl (fun r j => r.set j (r.getD j 0 + 1)) res).length = res.length := by
  induction js generalizing res with
  | nil => rfl
  | cons j js ih =>
    simp only [List.foldl_cons]
    rw [ih]
    exact List.length_set ..

theorem foldIncr_sum (js : List Nat) (res : List Nat) (h : ∀ j ∈ js, j < res.length) :
    (js.foldl (fun r j => r.set j (r.getD j 0 + 1)) res).sum = res.sum + js.length := by
  induction js generalizing res with
  | nil => simp
  | cons j js ih =>
    have hj : j < res.length := h j (.head _)
    simp only [List.foldl_cons]
    rw [ih _ (fun k hk => by rw [List.length_set]; exact h k (.tail _ hk)),
      sum_set_incr _ _ hj, List.length_cons]
    omega

theorem foldIncr_one_le (js : List Nat) (res : List Nat) (h : ∀ v ∈ res, 1 ≤ v) :
    ∀ v ∈ js.foldl (fun r j => r.set j (r.getD j 0 + 1)) res, 1 ≤ v := by
  induction js generalizing res with
  | nil => exact h
  | cons j js ih =>
    simp only [List.foldl_cons]
    refine ih _ (fun v hv => ?_)
    rcases List.mem_or_eq_of_mem_set hv with h' | h'
    · exact h v h'
    · omega

theorem insertSorted_perm (lt : Nat → Nat → Bool) (i : Nat) (l : List Nat) :
    (insertSorted lt i l).Perm (i :: l) := by
  induction l with
  | nil => exact List.Perm.refl _
  | cons j rest ih =>
    simp only [insertSorted]
    split
    · exact List.Perm.refl _
    · exact (ih.cons j).trans (List.Perm.swap i j rest)

theorem sortIndices_perm (lt : Nat → Nat → Bool) (l : List Nat) :
    (sortIndices lt l).Perm l := by
  induction l with
  | nil => exact List.Perm.refl _
  | cons i rest ih => exact (insertSorted_perm lt i _).trans (ih.cons i)

theorem div_add_div_le_add_div (a b c : Nat) : a / c + b / c ≤ (a + b) / c := by
  rcases Nat.eq_zero_or_pos c with hc | hc
  · simp [hc]
  · rw [Nat.le_div_iff_mul_le hc, Nat.add_mul]
    exact Nat.add_le_add (Nat.div_mul_le_self a c) (Nat.div_mul_le_self b c)

theorem sum_map_div_le (l : List Nat) (c : Nat) :
    (l.map (fun a => a / c)).sum ≤ l.sum / c := by
  induction l with
  | nil => simp
  | cons a rest ih =>
    simp only [List.map_cons, List.sum_cons]
    calc a / c + (rest.map (fun a => a / c)).sum ≤ a / c + rest.sum / c :=
          Nat.add_le_add_left ih _
      _ ≤ (a + rest.sum) / c := div_add_div_le_add_div ..

theorem sum_map_mul (T : Nat) (l : List Nat) :
    (l.map (fun w => T * w)).sum = T * l.sum := by
  induction l with
  | nil => simp
  | cons a rest ih => simp [List.sum_cons, ih, Nat.mul_add]

theorem clamped_head_bound (S T a : Nat) (hS : 0 < S) :
    T * a < S * max 1 (T * a / S) + S := by
  have h1 : S * (T * a / S) + T * a % S = T * a := Nat.div_add_mod (T * a) S
  have h2 : T * a % S < S := Nat.mod_lt _ hS
  have h3 : S * (T * a / S) ≤ S * max 1 (T * a / S) :=
    Nat.mul_le_mul_left S (le_max_right 1 _)
  linarith

theorem clamped_sum_lower_weak (S T : Nat) (hS : 0 < S) (l : List Nat) :
    T * l.sum ≤ S * ((l.map (fun w => max 1 (T * w / S))).sum) + S * l.length := by
  induction l with
  | nil => simp
  | cons a rest ih =>
    have hb := clamped_head_bound S T a hS
    simp only [List.map_cons, List.sum_cons, List.length_cons, Nat.mul_add]
    linarith

theorem clamped_sum_lower (S T : Nat) (hS : 0 < S) (a : Nat) (rest : List Nat) :
    T * (a :: rest).sum <
      S * (((a :: rest).map (fun w => max 1 (T * w / S))).sum) + S * (a :: rest).length := by
  have hb := clamped_head_bound S T a hS
  have hw := clamped_sum_lower_weak S T hS rest
  simp only [List.map_cons, List.sum_cons, List.length_cons, Nat.mul_add]
  linarith

theorem getD_replicate_eq (n q i : Nat) :
    (List.replicate n q).getD i 0 = if i < n then q else 0 := by
  induction n generalizing i with
  | zero => simp
  | succ n ih =>
    cases i with
    | zero => simp [List.replicate_succ]
    | succ i =>
      rw [List.replicate_succ, List.getD_cons_succ, ih]
      simp [Nat.succ_lt_succ_iff]

theorem idxBefore_replicate (n q i j : Nat) (hq : 1 ≤ q) (hij : i < j) :
    idxBefore (List.replicate n q) i j = true := by
  simp only [idxBefore, decide_eq_true_eq, getD_replicate_eq]
  split_ifs <;> omega

theorem sortIndices_of_pairwise (lt : Nat → Nat → Bool) (l : List Nat)
    (h : l.Pairwise (fun i j => lt i j = true)) : sortIndices lt l = l := by
  induction l with
  | nil => rfl
  | cons i rest ih =>
    have h1 : ∀ j ∈ rest, lt i j = true := (List.pairwise_cons.1 h).1
    show insertSorted lt i (sortIndices lt rest) = i :: rest
    rw [ih (List.pairwise_cons.1 h).2]
    cases rest with
    | nil => rfl
    | cons j rest' => simp only [insertSorted, h1 j (List.mem_cons_self j rest'), if_true]

theorem getD_append_len {α : Type} (l1 : List α) (x : α) (l2 : List α) (d : α) :
    (l1 ++ x :: l2).getD l1.length d = x := by
  induction l1 with
  | nil => simp
  | cons a l1 ih => simpa [List.getD_cons_succ] using ih

theorem set_append_len {α : Type} (l1 : List α) (x v : α) (l2 : List α) :
    (l1 ++ x :: l2).set l1.length v = l1 ++ v :: l2 := by
  induction l1 with
  | nil => simp
  | cons a l1 ih => simp [List.set_cons_succ, ih]

theorem fold_incr_replicate (q : Nat) :
    ∀ (r n : Nat), r ≤ n →
      (List.range r).foldl (fun res j => res.set j (res.getD j 0 + 1))
          (List.replicate n q) =
        List.replicate r (q + 1) ++ List.replicate (n - r) q := by
  intro r
  induction r with
  | zero => intro n _; simp
  | succ r ih =>
    intro n hrn
    have hrn' : r < n := hrn
    rw [List.range_succ, List.foldl_append, ih n (Nat.le_of_succ_le hrn)]
    simp only [List.foldl_cons, List.foldl_nil]
    have hsplit : n - r = (n - r - 1) + 1 := by omega
    rw [hsplit, List.replicate_succ]
    have hg : (List.replicate r (q + 1) ++ q :: List.replicate (n - r - 1) q).getD r 0 = q := by
      have h := getD_append_len (List.replicate r (q + 1)) q (List.replicate (n - r - 1) q) 0
      rwa [List.length_replicate] at h
    have hs : (List.replicate r (q + 1) ++ q :: List.replicate (n - r - 1) q).set r (q + 1) =
        List.replicate r (q + 1) ++ (q + 1) :: List.replicate (n - r - 1) q := by
      have h := set_append_len (List.replicate r (q + 1)) q (q + 1) (List.replicate (n - r - 1) q)
      rwa [List.length_replicate] at h
    rw [hg, hs, List.replicate_succ' r (q + 1)]
    have hn1 : n - (r + 1) = n - r - 1 := by omega
    rw [hn1]
    simp [List.append_assoc]

theorem createWidthUnitsArray_eq (arr : List Nat) (tW : Nat) :
    createWidthUnitsArray arr tW =
      if 0 < (tW : Int) - ((rawWidths arr tW).sum : Int) then
        ((sortIndices (idxBefore (rawWidths arr tW))
            (List.range (rawWidths arr tW).length)).take
              ((tW : Int) - ((rawWidths arr tW).sum : Int)).toNat).foldl
          (fun res j => res.set j (res.getD j 0 + 1)) (rawWidths arr tW)
      else rawWidths arr tW := rfl

theorem rawWidths_length (arr : List Nat) (tW : Nat) :
    (rawWidths arr tW).length = arr.length :=
  List.length_map ..

theorem rawWidths_one_le (arr : List Nat) (tW : Nat) :
    ∀ u ∈ rawWidths arr tW, 1 ≤ u := by
  intro u hu
  obtain ⟨w, _, rfl⟩ := List.mem_map.1 hu
  exact le_max_left 1 _

/-- **C1** (amended).  The Width Allocator at total width 24 always
returns one width per weight and every width is at least 1.  Whenever,
in addition, no weight's floored proportional share is clamped up to 1
— that is, `Σ weights ≤ 24 * w` for every weight `w` — the returned
widths sum to exactly 24 and the shortfall `Δ = 24 - Σ raw_i` is
non-negative.  (The proviso is necessary: the `max(1, ·)` clamp of
line 96 can push the raw sum above 24, see
`width_allocator_overflow_cex`.) -/
theorem width_allocator_fills_total (arr : List Nat) :
    ((createWidthUnitsArray arr 24).length = arr.length ∧
      ∀ u ∈ createWidthUnitsArray arr 24, 1 ≤ u) ∧
    ((arr ≠ [] ∧ ∀ w ∈ arr, 0 < w ∧ arr.sum ≤ 24 * w) →
      (createWidthUnitsArray arr 24).sum = 24 ∧ 0 ≤ widthDelta arr 24) := by
  constructor
  · rw [createWidthUnitsArray_eq]
    split
    · exact ⟨by rw [foldIncr_length, rawWidths_length],
        foldIncr_one_le _ _ (rawWidths_one_le arr 24)⟩
    · exact ⟨rawWidths_length arr 24, rawWidths_one_le arr 24⟩
  · rintro ⟨hne, hall⟩
    obtain ⟨a, rest, rfl⟩ := List.exists_cons_of_ne_nil hne
    have hS : 0 < (a :: rest).sum := by
      have ha := (hall a (List.mem_cons_self a rest)).1
      simp only [List.sum_cons]
      omega
    have hmax : ∀ w ∈ a :: rest,
        max 1 (24 * w / (a :: rest).sum) = 24 * w / (a :: rest).sum :=
      fun w hw => max_eq_right ((Nat.one_le_div_iff hS).2 (hall w hw).2)
    have hRsum_le : (rawWidths (a :: rest) 24).sum ≤ 24 := by
      have h1 : rawWidths (a :: rest) 24 = (a :: rest).map (fun w => 24 * w / (a :: rest).sum) :=
        List.map_congr_left hmax
      calc (rawWidths (a :: rest) 24).sum
          = (((a :: rest).map (fun w => 24 * w)).map (fun x => x / (a :: rest).sum)).sum := by
            rw [h1, List.map_map]; rfl
        _ ≤ ((a :: rest).map (fun w => 24 * w)).sum / (a :: rest).sum := sum_map_div_le ..
        _ = 24 * (a :: rest).sum / (a :: rest).sum := by rw [sum_map_mul]
        _ = 24 := Nat.mul_div_cancel 24 hS
    have hDelta : 0 ≤ widthDelta (a :: rest) 24 := by
      unfold widthDelta
      omega
    refine ⟨?_, hDelta⟩
    have hlow : 24 < (rawWidths (a :: rest) 24).sum + (a :: rest).length := by
      have h := clamped_sum_lower (a :: rest).sum 24 hS a rest
      have h2 : (a :: rest).sum * 24 <
          (a :: rest).sum * ((rawWidths (a :: rest) 24).sum + (a :: rest).length) := by
        rw [Nat.mul_add]
        have hcomm : 24 * (a :: rest).sum = (a :: rest).sum * 24 := Nat.mul_comm ..
        unfold rawWidths
        linarith [h]
      exact Nat.lt_of_mul_lt_mul_left h2
    rw [createWidthUnitsArray_eq]
    split_ifs with hif
    · have hRsum_lt : (rawWidths (a :: rest) 24).sum < 24 := by omega
      have hmem : ∀ j ∈ (sortIndices (idxBefore (rawWidths (a :: rest) 24))
          (List.range (rawWidths (a :: rest) 24).length)).take
            (((24 : Nat) : Int) - ((rawWidths (a :: rest) 24).sum : Int)).toNat,
          j < (rawWidths (a :: rest) 24).length := by
        intro j hj
        have hj1 := List.Sublist.mem hj (List.take_sublist _ _)
        have hj2 := (sortIndices_perm _ _).mem_iff.1 hj1
        exact List.mem_range.1 hj2
      rw [foldIncr_sum _ _ hmem, List.length_take,
        (sortIndices_perm _ _).length_eq, List.length_range]
      have hRlen : (rawWidths (a :: rest) 24).length = (a :: rest).length :=
        rawWidths_length ..
      omega
    · omega

/-- **C1** counterexample.  For the positive, non-empty weight list
`[1, 1, 100]` the `max(1, ·)` clamp lifts the two tiny shares to 1 while
the floored large share is 23, so the allocated widths sum to 25 ≠ 24 and
the shortfall `Δ` is `-1 < 0`, refuting the claim as stated. -/
theorem width_allocator_overflow_cex :
    createWidthUnitsArray [1, 1, 100] 24 = [1, 1, 23] ∧
      (createWidthUnitsArray [1, 1, 100] 24).sum = 25 ∧
      widthDelta [1, 1, 100] 24 = -1 := by
  refine ⟨by decide, by decide, by decide⟩

theorem width_allocator_fills_total_witness :
    (createWidthUnitsArray [3, 2] 24).sum = 24 ∧ 0 ≤ widthDelta [3, 2] 24 :=
  (width_allocator_fills_total [3, 2]).2 (by decide)

/-- **C2**.  When the shortfall is positive it is handed out, one unit
each, to the first `Δ` indices of the stable descending order (largest
allocated width first, original position as tie-break): the three
concrete cases of the claim evaluate as stated, and for any list of `n`
equal weights (`1 ≤ n ≤ 24`) the `24 mod n` remainder units go to the
leftmost `24 mod n` panels. -/
theorem width_allocator_remainder_order :
    createWidthUnitsArray [1, 2] 24 = [8, 16] ∧
    createWidthUnitsArray [1, 1, 1] 24 = [8, 8, 8] ∧
    createWidthUnitsArray [1, 2, 2] 24 = [4, 10, 10] ∧
    (createWidthUnitsArray [1, 2, 2] 24).sum = 24 ∧
    (∀ n c : Nat, 1 ≤ n → n ≤ 24 → 1 ≤ c →
      createWidthUnitsArray (List.replicate n c) 24 =
        List.replicate (24 % n) (24 / n + 1) ++
          List.replicate (n - 24 % n) (24 / n)) := by
  refine ⟨by decide, by decide, by decide, by decide, ?_⟩
  intro n c hn hn24 hc
  have hn0 : 0 < n := hn
  have hq1 : 1 ≤ 24 / n := (Nat.one_le_div_iff hn0).2 hn24
  have hsum : (List.replicate n c).sum = n * c := by
    rw [List.sum_replicate, smul_eq_mul]
  have hdiv : 24 * c / (n * c) = 24 / n := Nat.mul_div_mul_right 24 n hc
  have hraw : rawWidths (List.replicate n c) 24 = List.replicate n (24 / n) := by
    unfold rawWidths
    rw [hsum, List.map_replicate, hdiv, max_eq_right hq1]
  have hRsum : (List.replicate n (24 / n)).sum = n * (24 / n) := by
    rw [List.sum_replicate, smul_eq_mul]
  have hmod := Nat.div_add_mod 24 n
  have hmodlt : 24 % n < n := Nat.mod_lt 24 hn0
  rw [createWidthUnitsArray_eq, hraw, hRsum]
  by_cases hr : 24 % n = 0
  · rw [if_neg (by omega)]
    rw [hr, Nat.sub_zero]
    simp
  · rw [if_pos (by omega)]
    have hlen : (List.replicate n (24 / n)).length = n := List.length_replicate ..
    have hpair : (List.range n).Pairwise
        (fun i j => idxBefore (List.replicate n (24 / n)) i j = true) :=
      (List.pairwise_lt_range n).imp
        (fun hij => idxBefore_replicate _ _ _ _ hq1 hij)
    rw [hlen, sortIndices_of_pairwise _ _ hpair]
    have htoNat : (((24 : Nat) : Int) - ((n * (24 / n) : Nat) : Int)).toNat = 24 % n := by
      omega
    rw [htoNat, List.take_range, Nat.min_eq_left (Nat.le_of_lt hmodlt),
      fold_incr_replicate _ _ _ (Nat.le_of_lt hmodlt)]

theorem width_allocator_remainder_order_witness :
    createWidthUnitsArray (List.replicate 5 3) 24 =
      List.replicate 4 5 ++ List.replicate 1 4 :=
  width_allocator_remainder_order.2.2.2.2 5 3 (by decide) (by decide) (by decide)

/-! ### PanelGroup construction lemmas -/

theorem make_some_dest (layout : LayoutSpec) (numPanels : Nat) (y : Int)
    (rh : RowHeightsSpec) (hasRow : Bool) (g : PanelGroup)
    (h : PanelGroup.make layout numPanels y rh hasRow = some g) :
    ∃ rows hs, normalizeLayout layout numPanels = some rows ∧
      (rows.map List.length).sum = numPanels ∧
      resolveRowHeights rh rows.length = some hs ∧
      g = { layout := rows
            rowHeights := hs
            row := if hasRow then some ⟨0, y, (MAX_WIDTH : Int), 1⟩ else none
            y := y
            height := hs.sum + hs.length + (if hasRow then 2 else 0)
            panels := computeRows (rows.zip hs) (y + (if hasRow then 2 else 0)) } := by
  unfold PanelGroup.make at h
  cases hn : normalizeLayout layout numPanels with
  | none => rw [hn] at h; exact absurd h (by simp)
  | some rows =>
    rw [hn] at h
    dsimp only at h
    by_cases hc : (rows.map List.length).sum = numPanels
    · rw [if_pos hc] at h
      cases hr : resolveRowHeights rh rows.length with
      | none => rw [hr] at h; exact absurd h (by simp)
      | some hs =>
        rw [hr] at h
        dsimp only at h
        exact ⟨rows, hs, rfl, hc, hr, (Option.some.inj h).symm⟩
    · rw [if_neg hc] at h; exact absurd h (by simp)

theorem resolve_length (rh : RowHeightsSpec) (rowCount : Nat) (hs : List Int)
    (h : resolveRowHeights rh rowCount = some hs) : hs.length = rowCount := by
  cases rh with
  | single hh =>
    unfold resolveRowHeights at h
    dsimp only at h
    rw [← Option.some.inj h, List.length_replicate]
  | perRow hs' =>
    unfold resolveRowHeights at h
    dsimp only at h
    by_cases hl : hs'.length = rowCount
    · rw [if_pos hl] at h
      rw [← Option.some.inj h]
      exact hl
    · rw [if_neg hl] at h
      exact absurd h (by simp)

theorem rowPositions_getD (units : List Nat) :
    ∀ (x y h : Int) (k : Nat), k < units.length →
      (rowPositions units x y h).getD k ⟨0, 0, 0, 0⟩ =
        ⟨x + ((units.take k).sum : Int), y, (units.getD k 0 : Int), h⟩ := by
  induction units with
  | nil => intro x y h k hk; exact absurd hk (by simp)
  | cons w ws ih =>
    intro x y h k hk
    cases k with
    | zero => simp [rowPositions]
    | succ k =>
      have hk' : k < ws.length := by simpa using hk
      show (rowPositions ws (x + (w : Int)) y h).getD k _ = _
      rw [ih (x + (w : Int)) y h k hk']
      simp only [List.take_succ_cons, List.sum_cons, List.getD_cons_succ,
        GridPos.mk.injEq, and_true]
      push_cast
      ring

/-- **C3**.  Position computation at construction: within a row, panel
`k` sits at abscissa `x` equal to the start plus the sum of the earlier
allocated widths, at the row's ordinate, with its allocated width and
the row's height; after a row the ordinate advances by `row_height + 1`;
with a header present the header occupies `{x:0, y:origin, w:24, h:1}`
and the data rows start 2 units below the origin; and the concrete group
`layout=[[3,2],[1,1]], row_heights=8, 4 panels, origin 0` yields
rectangles `(0,0,15,8), (15,0,9,8)` (row 0, widths summing to 24) and
`(0,9,12,8), (12,9,12,8)` (row 1 at `y = 9`). -/
theorem group_position_computation :
    (∀ (units : List Nat) (x y h : Int) (k : Nat), k < units.length →
      (rowPositions units x y h).getD k ⟨0, 0, 0, 0⟩ =
        ⟨x + ((units.take k).sum : Int), y, (units.getD k 0 : Int), h⟩) ∧
    (∀ (sizes : List PanelSize) (h : Int) (rest : List (List PanelSize × Int)) (y : Int),
      computeRows ((sizes, h) :: rest) y =
        rowPositions (createWidthUnitsArray (sizes.map PanelSize.value) MAX_WIDTH) 0 y h
          ++ computeRows rest (y + h + 1)) ∧
    (∀ (layout : LayoutSpec) (numPanels : Nat) (y : Int) (rh : RowHeightsSpec)
        (g : PanelGroup), PanelGroup.make layout numPanels y rh true = some g →
      g.row = some ⟨0, y, 24, 1⟩ ∧
      g.panels = computeRows (g.layout.zip g.rowHeights) (y + 2)) ∧
    ((PanelGroup.make (.nested [[.LARGE, .MEDIUM], [.SMALL, .SMALL]]) 4 0
        (.single 8) false).map PanelGroup.panels =
      some [⟨0, 0, 15, 8⟩, ⟨15, 0, 9, 8⟩, ⟨0, 9, 12, 8⟩, ⟨12, 9, 12, 8⟩]) := by
  refine ⟨rowPositions_getD, fun _ _ _ _ => rfl, ?_, by decide⟩
  intro layout numPanels y rh g h
  obtain ⟨rows, hs, _, _, _, rfl⟩ := make_some_dest _ _ _ _ _ _ h
  constructor
  · simp [MAX_WIDTH]
  · simp

theorem group_position_computation_witness :
    (rowPositions [8, 16] 0 0 8).getD 1 ⟨0, 0, 0, 0⟩ = ⟨8, 0, 16, 8⟩ ∧
    ((PanelGroup.mk [[.SMALL]] [8] (some ⟨0, 0, 24, 1⟩) 0 11 [⟨0, 2, 24, 8⟩]).row =
        some ⟨0, 0, 24, 1⟩ ∧
      (PanelGroup.mk [[.SMALL]] [8] (some ⟨0, 0, 24, 1⟩) 0 11 [⟨0, 2, 24, 8⟩]).panels =
        computeRows ([[PanelSize.SMALL]].zip [8]) (0 + 2)) :=
  ⟨group_position_computation.1 [8, 16] 0 0 8 1 (by decide),
    group_position_computation.2.2.1 (.flat [.SMALL]) 1 0 (.single 8) _ (by decide)⟩

theorem replicate_map_length_sum (k : Nat) (l : List PanelSize) :
    ((List.replicate k l).map List.length).sum = k * l.length := by
  rw [List.map_replicate, List.sum_replicate, smul_eq_mul]

/-- **C5**.  Construction returns `none` (a raised `assert` /
`IndexError`, so no partial group exists) exactly when the layout is
empty, the normalized layout's flattened panel count differs from the
panel count (for a flat layout of length `L` that count is
`(n / L) * L`, which differs from `n` exactly when `L` does not divide
`n`), or `row_heights` is a list whose length differs from the row
count. -/
theorem group_validation_fails_iff (layout : LayoutSpec) (numPanels : Nat) (y : Int)
    (rh : RowHeightsSpec) (hasRow : Bool) :
    (PanelGroup.make layout numPanels y rh hasRow = none ↔
      ((match layout with
        | .flat l => l = [] ∨ (numPanels / l.length) * l.length ≠ numPanels
        | .nested rows => rows = [] ∨ (rows.map List.length).sum ≠ numPanels) ∨
       (match rh with
        | .single _ => False
        | .perRow hs => hs.length ≠
            (match layout with
             | .flat l => numPanels / l.length
             | .nested rows => rows.length)))) ∧
    (∀ (L n : Nat), (n / L) * L ≠ n ↔ ¬ L ∣ n) := by
  constructor
  · cases layout with
    | flat l =>
      cases l with
      | nil => simp [PanelGroup.make, normalizeLayout]
      | cons s l' =>
        have hnorm : normalizeLayout (.flat (s :: l')) numPanels =
            some (List.replicate (numPanels / (s :: l').length) (s :: l')) := rfl
        unfold PanelGroup.make
        rw [hnorm]
        dsimp only
        rw [replicate_map_length_sum]
        by_cases hc : (numPanels / (s :: l').length) * (s :: l').length = numPanels
        all_goals have hc' := hc
        all_goals simp only [List.length_cons] at hc'
        · rw [if_pos hc]
          cases rh with
          | single hh => simp [resolveRowHeights, hc']
          | perRow hs =>
            unfold resolveRowHeights
            dsimp only
            rw [List.length_replicate]
            by_cases hl : hs.length = numPanels / (s :: l').length
            all_goals have hl' := hl
            all_goals simp only [List.length_cons] at hl'
            · rw [if_pos hl]; simp [hc', hl']
            · rw [if_neg hl]; simp [hc', hl']
        · rw [if_neg hc]; simp [hc']
    | nested rows =>
      cases rows with
      | nil => simp [PanelGroup.make, normalizeLayout]
      | cons r rows' =>
        have hnorm : normalizeLayout (.nested (r :: rows')) numPanels =
            some (r :: rows') := rfl
        unfold PanelGroup.make
        rw [hnorm]
        dsimp only
        by_cases hc : ((r :: rows').map List.length).sum = numPanels
        all_goals have hc' := hc
        all_goals simp only [List.map_cons, List.sum_cons] at hc'
        · rw [if_pos hc]
          cases rh with
          | single hh => simp [resolveRowHeights, hc']
          | perRow hs =>
            unfold resolveRowHeights
            dsimp only
            by_cases hl : hs.length = (r :: rows').length
            all_goals have hl' := hl
            all_goals simp only [List.length_cons] at hl'
            · rw [if_pos hl]; simp [hc', hl']
            · rw [if_neg hl]; simp [hc', hl']
        · rw [if_neg hc]; simp [hc']
  · intro L n
    rcases Nat.eq_zero_or_pos L with hL | hL
    · subst hL
      simp only [Nat.mul_zero, zero_dvd_iff]
      exact ne_comm
    · constructor
      · intro hne hdvd
        exact hne (Nat.div_mul_cancel hdvd)
      · intro hnd heq
        refine hnd ⟨n / L, ?_⟩
        rw [Nat.mul_comm L (n / L)]
        exact heq.symm

/-- **C6** counterexample.  The constructor does not clamp a negative
origin: `self._y = y` is stored unmodified (line 70), so a group built
at origin `-5` places its only panel at `y = -5`, not at the positions
of the origin-0 group. -/
theorem negative_origin_not_defaulted_cex :
    (PanelGroup.make (.flat [.SMALL]) 1 (-5) (.single 8) false).map PanelGroup.panels ≠
      (PanelGroup.make (.flat [.SMALL]) 1 0 (.single 8) false).map PanelGroup.panels := by
  decide

theorem rowPositions_shift (units : List Nat) :
    ∀ (x b d h : Int), rowPositions units x (b + d) h =
      (rowPositions units x b h).map (fun p => { p with y := p.y + d }) := by
  induction units with
  | nil => intros; rfl
  | cons w ws ih =>
    intro x b d h
    simp only [rowPositions, List.map_cons]
    rw [ih]

theorem computeRows_shift (rz : List (List PanelSize × Int)) :
    ∀ (b d : Int), computeRows rz (b + d) =
      (computeRows rz b).map (fun p => { p with y := p.y + d }) := by
  induction rz with
  | nil => intros; rfl
  | cons row' rest ih =>
    intro b d
    obtain ⟨sizes, h⟩ := row'
    simp only [computeRows, List.map_append]
    rw [← rowPositions_shift]
    congr 1
    rw [show b + d + h + 1 = (b + h + 1) + d by ring, ih]

/-- **C6** (amended).  A *missing* origin defaults to 0 (the Python
parameter default `y: int = 0`), but a negative origin is *not* clamped:
construction at any origin `y` — negative included — produces exactly
the origin-0 group translated by `y` (the positions are computed from
the stored origin unmodified). -/
theorem origin_used_as_given (layout : LayoutSpec) (numPanels : Nat) (y : Int)
    (rh : RowHeightsSpec) (hasRow : Bool) :
    PanelGroup.make layout numPanels y rh hasRow =
      (PanelGroup.make layout numPanels 0 rh hasRow).map (fun g => g.setY y) := by
  unfold PanelGroup.make
  cases hn : normalizeLayout layout numPanels with
  | none => rfl
  | some rows =>
    dsimp only
    by_cases hc : (rows.map List.length).sum = numPanels
    · rw [if_pos hc, if_pos hc]
      cases hr : resolveRowHeights rh rows.length with
      | none => rfl
      | some hs =>
        dsimp only
        rw [Option.map_some']
        refine congrArg some ?_
        unfold PanelGroup.setY
        dsimp only
        simp only [PanelGroup.mk.injEq, true_and, and_true]
        constructor
        · cases hasRow <;> simp
        · rw [zero_add, show y + (if hasRow then (2 : Int) else 0) =
              (if hasRow then (2 : Int) else 0) + y by ring, computeRows_shift]
          simp
    · rw [if_neg hc, if_neg hc]
      rfl

/-- **C7**.  For every successfully constructed group, the row-height
list matches the row count and the stored `height` (returned verbatim by
`get_height`, line 116) equals `Σ row_heights + row_count`, plus 2 when a
row header is present; consequently the same construction with a header
is exactly 2 taller than without. -/
theorem group_height_formula :
    (∀ (layout : LayoutSpec) (numPanels : Nat) (y : Int) (rh : RowHeightsSpec)
        (hasRow : Bool) (g : PanelGroup),
      PanelGroup.make layout numPanels y rh hasRow = some g →
        g.rowHeights.length = g.layout.length ∧
        g.height = g.rowHeights.sum + g.rowHeights.length +
          (if hasRow then 2 else 0)) ∧
    (∀ (layout : LayoutSpec) (numPanels : Nat) (y : Int) (rh : RowHeightsSpec)
        (g1 : PanelGroup),
      PanelGroup.make layout numPanels y rh true = some g1 →
      ∃ g0, PanelGroup.make layout numPanels y rh false = some g0 ∧
        g1.height = g0.height + 2) := by
  constructor
  · intro layout numPanels y rh hasRow g h
    obtain ⟨rows, hs, hn, hc, hr, rfl⟩ := make_some_dest _ _ _ _ _ _ h
    exact ⟨resolve_length _ _ _ hr, rfl⟩
  · intro layout numPanels y rh g1 h
    obtain ⟨rows, hs, hn, hc, hr, rfl⟩ := make_some_dest _ _ _ _ _ _ h
    have hmk : PanelGroup.make layout numPanels y rh false =
        some { layout := rows
               rowHeights := hs
               row := none
               y := y
               height := hs.sum + hs.length + 0
               panels := computeRows (rows.zip hs) (y + 0) } := by
      unfold PanelGroup.make
      rw [hn]
      dsimp only
      rw [if_pos hc, hr]
      rfl
    exact ⟨_, hmk, by simp⟩

theorem group_height_formula_witness :
    ((PanelGroup.mk [[.SMALL]] [8] (some ⟨0, 0, 24, 1⟩) 0 11
        [⟨0, 2, 24, 8⟩]).rowHeights.length =
      (PanelGroup.mk [[.SMALL]] [8] (some ⟨0, 0, 24, 1⟩) 0 11
        [⟨0, 2, 24, 8⟩]).layout.length) ∧
    ((PanelGroup.mk [[.SMALL]] [8] (some ⟨0, 0, 24, 1⟩) 0 11
        [⟨0, 2, 24, 8⟩]).height =
      (PanelGroup.mk [[.SMALL]] [8] (some ⟨0, 0, 24, 1⟩) 0 11
        [⟨0, 2, 24, 8⟩]).rowHeights.sum +
      (PanelGroup.mk [[.SMALL]] [8] (some ⟨0, 0, 24, 1⟩) 0 11
        [⟨0, 2, 24, 8⟩]).rowHeights.length + 2) :=
  group_height_formula.1 (.flat [.SMALL]) 1 0 (.single 8) true _ (by decide)

theorem map_shift_getD (l : List GridPos) (d : Int) (k : Nat) (hk : k < l.length) :
    (l.map (fun p => { p with y := p.y + d })).getD k ⟨0, 0, 0, 0⟩ =
      { l.getD k ⟨0, 0, 0, 0⟩ with y := (l.getD k ⟨0, 0, 0, 0⟩).y + d } := by
  rw [List.getD_eq_getElem _ _ (by simpa using hk), List.getD_eq_getElem _ _ hk,
    List.getElem_map]

/-- **C8**.  `set_y(new_y)` fails exactly on `new_y < 0`; otherwise it
stores the new origin and translates the header and every panel by
`new_y - _y`, leaving `x`, `w`, `h` (and layout, row heights, height)
unchanged and preserving every pairwise vertical distance. -/
theorem set_y_translates (g : PanelGroup) (newY : Int) :
    (newY < 0 → PanelGroup.setYChecked g newY = none) ∧
    (0 ≤ newY →
      PanelGroup.setYChecked g newY = some (g.setY newY) ∧
      (g.setY newY).y = newY ∧
      (g.setY newY).layout = g.layout ∧
      (g.setY newY).rowHeights = g.rowHeights ∧
      (g.setY newY).height = g.height ∧
      (g.setY newY).row = g.row.map (fun r => { r with y := r.y + (newY - g.y) }) ∧
      (g.setY newY).panels.length = g.panels.length ∧
      (∀ k : Nat, k < g.panels.length →
        ((g.setY newY).panels.getD k ⟨0, 0, 0, 0⟩).x =
            (g.panels.getD k ⟨0, 0, 0, 0⟩).x ∧
          ((g.setY newY).panels.getD k ⟨0, 0, 0, 0⟩).w =
            (g.panels.getD k ⟨0, 0, 0, 0⟩).w ∧
          ((g.setY newY).panels.getD k ⟨0, 0, 0, 0⟩).h =
            (g.panels.getD k ⟨0, 0, 0, 0⟩).h ∧
          ((g.setY newY).panels.getD k ⟨0, 0, 0, 0⟩).y =
            (g.panels.getD k ⟨0, 0, 0, 0⟩).y + (newY - g.y)) ∧
      (∀ k l : Nat, k < g.panels.length → l < g.panels.length →
        ((g.setY newY).panels.getD k ⟨0, 0, 0, 0⟩).y -
            ((g.setY newY).panels.getD l ⟨0, 0, 0, 0⟩).y =
          (g.panels.getD k ⟨0, 0, 0, 0⟩).y - (g.panels.getD l ⟨0, 0, 0, 0⟩).y)) := by
  constructor
  · intro hneg
    unfold PanelGroup.setYChecked
    rw [if_pos hneg]
  · intro hpos
    have hk : ∀ k : Nat, k < g.panels.length →
        ((g.setY newY).panels.getD k ⟨0, 0, 0, 0⟩) =
          { g.panels.getD k ⟨0, 0, 0, 0⟩ with
            y := (g.panels.getD k ⟨0, 0, 0, 0⟩).y + (newY - g.y) } :=
      fun k hkk => map_shift_getD g.panels (newY - g.y) k hkk
    refine ⟨?_, rfl, rfl, rfl, rfl, rfl, by simp [PanelGroup.setY], ?_, ?_⟩
    · unfold PanelGroup.setYChecked
      rw [if_neg (by omega)]
    · intro k hkk
      rw [hk k hkk]
      exact ⟨rfl, rfl, rfl, rfl⟩
    · intro k l hkk hll
      rw [hk k hkk, hk l hll]
      dsimp only
      ring

theorem set_y_translates_witness :
    PanelGroup.setYChecked
        (PanelGroup.mk [[.SMALL]] [8] none 0 9 [⟨0, 0, 24, 8⟩]) (-1) = none ∧
      PanelGroup.setYChecked
        (PanelGroup.mk [[.SMALL]] [8] none 0 9 [⟨0, 0, 24, 8⟩]) 5 =
        some ((PanelGroup.mk [[.SMALL]] [8] none 0 9 [⟨0, 0, 24, 8⟩]).setY 5) :=
  ⟨(set_y_translates (PanelGroup.mk [[.SMALL]] [8] none 0 9 [⟨0, 0, 24, 8⟩]) (-1)).1
      (by norm_num),
    ((set_y_translates (PanelGroup.mk [[.SMALL]] [8] none 0 9 [⟨0, 0, 24, 8⟩]) 5).2
      (by norm_num)).1⟩

/-- **C10**.  An empty panel list with a non-empty *flat* layout passes
validation (the replication count `0 // L` is zero, so the normalized
layout has zero rows and `0 == len(panels)` holds): the group has no
rows, height `0` (or `2` with a header), the header — when present —
still gets `{x:0, y:origin, w:24, h:1}`, and no panel rectangle is
written. -/
theorem empty_panels_flat_layout (l : List PanelSize) (hne : l ≠ []) (y : Int)
    (h : Int) (hasRow : Bool) :
    PanelGroup.make (.flat l) 0 y (.single h) hasRow =
      some { layout := []
             rowHeights := []
             row := if hasRow then some ⟨0, y, 24, 1⟩ else none
             y := y
             height := if hasRow then 2 else 0
             panels := [] } := by
  obtain ⟨s, l', rfl⟩ := List.exists_cons_of_ne_nil hne
  have hnorm : normalizeLayout (.flat (s :: l')) 0 = some [] := by
    show some (List.replicate (0 / (s :: l').length) (s :: l')) = some []
    rw [Nat.zero_div, List.replicate_zero]
  unfold PanelGroup.make
  rw [hnorm]
  dsimp only [List.map_nil, List.sum_nil]
  rw [if_pos rfl]
  unfold resolveRowHeights
  dsimp only [List.length_nil]
  rw [List.replicate_zero]
  refine congrArg some ?_
  simp [PanelGroup.mk.injEq, MAX_WIDTH, computeRows]

theorem empty_panels_flat_layout_witness :
    PanelGroup.make (.flat [.SMALL]) 0 3 (.single 8) true =
      some { layout := []
             rowHeights := []
             row := some ⟨0, 3, 24, 1⟩
             y := 3
             height := 2
             panels := [] } :=
  empty_panels_flat_layout [.SMALL] (by decide) 3 8 true

/-! ### Positioning-tree lemmas -/

theorem flattenList_blocks (cs : List PTree) :
    ∀ (y : Int) (ps : List GridPos), flattenList cs y = some ps →
      ∃ parts : List (List GridPos), parts.length = cs.length ∧ ps = parts.flatten ∧
        ∀ i (hi : i < cs.length),
          PTree.panelsAt (cs.get ⟨i, hi⟩)
              (y + ((cs.take i).map PTree.height).sum) = some (parts.getD i []) := by
  induction cs with
  | nil =>
    intro y ps h
    obtain rfl : ps = [] := by
      have h' : flattenList ([] : List PTree) y = some [] := rfl
      rw [h'] at h
      exact (Option.some.inj h).symm
    refine ⟨[], rfl, rfl, ?_⟩
    intro i hi
    exact absurd hi (by simp)
  | cons t ts ih =>
    intro y ps h
    simp only [flattenList] at h
    split_ifs at h with hy
    cases hp : PTree.panelsAt t y with
    | none =>
      rw [hp] at h
      cases hq : flattenList ts (y + PTree.height t) with
      | none => rw [hq] at h; exact absurd h (by simp)
      | some rest => rw [hq] at h; exact absurd h (by simp)
    | some p0 =>
      rw [hp] at h
      cases hq : flattenList ts (y + PTree.height t) with
      | none => rw [hq] at h; exact absurd h (by simp)
      | some rest =>
        rw [hq] at h
        dsimp only at h
        obtain rfl : p0 ++ rest = ps := Option.some.inj h
        obtain ⟨parts', hlen, rfl, hblocks⟩ := ih (y + PTree.height t) rest hq
        refine ⟨p0 :: parts', by simp [hlen], by simp, ?_⟩
        intro i hi
        cases i with
        | zero => simpa using hp
        | succ i =>
          have hi' : i < ts.length := by simpa using hi
          have hb := hblocks i hi'
          simp only [List.take_succ_cons, List.map_cons, List.sum_cons,
            List.get_cons_succ, List.getD_cons_succ]
          rw [← add_assoc]
          exact hb

mutual

theorem panelsAt_length : ∀ (t : PTree) (y : Int) (ps : List GridPos),
    PTree.panelsAt t y = some ps → ps.length = PTree.panelTotal t
  | .group g, y, ps, h => by
    obtain rfl : headerList (g.setY y) ++ (g.setY y).panels = ps := Option.some.inj h
    rw [List.length_append]
    cases hgr : g.row with
    | none => simp [headerList, PanelGroup.setY, hgr, PTree.panelTotal]
    | some r => simp [headerList, PanelGroup.setY, hgr, PTree.panelTotal, Nat.add_comm]
  | .node cs y0, y, ps, h => flattenList_length cs y ps h

theorem flattenList_length : ∀ (cs : List PTree) (c : Int) (ps : List GridPos),
    flattenList cs c = some ps → ps.length = panelTotalList cs
  | [], c, ps, h => by
    obtain rfl : ps = [] := by
      have h' : flattenList ([] : List PTree) c = some [] := rfl
      rw [h'] at h
      exact (Option.some.inj h).symm
    rfl
  | t :: ts, c, ps, h => by
    simp only [flattenList] at h
    split_ifs at h with hy
    cases hp : PTree.panelsAt t c with
    | none =>
      rw [hp] at h
      cases hq : flattenList ts (c + PTree.height t) with
      | none => rw [hq] at h; exact absurd h (by simp)
      | some rest => rw [hq] at h; exact absurd h (by simp)
    | some p0 =>
      rw [hp] at h
      cases hq : flattenList ts (c + PTree.height t) with
      | none => rw [hq] at h; exact absurd h (by simp)
      | some rest =>
        rw [hq] at h
        dsimp only at h
        obtain rfl : p0 ++ rest = ps := Option.some.inj h
        have h1 := panelsAt_length t c p0 hp
        have h2 := flattenList_length ts (c + PTree.height t) rest hq
        show (p0 ++ rest).length = panelTotalList (t :: ts)
        rw [List.length_append, h1, h2]
        rfl

end

/-- **C4**.  Reading the flattened panel sequence positions child `i` at
the tree's origin plus the sum of the heights of children `0..i-1` and
concatenates the children's emitted blocks in child order; each block's
length is the child's panel count plus one per row header present
(nested trees counted recursively), so the whole sequence's length is
the sum of those counts; and a group child's block is its (translated)
row header, when present, followed by its own panels. -/
theorem positioning_flatten_structure :
    (∀ (cs : List PTree) (y : Int) (ps : List GridPos), flattenList cs y = some ps →
      ∃ parts : List (List GridPos), parts.length = cs.length ∧ ps = parts.flatten ∧
        ∀ i (hi : i < cs.length),
          PTree.panelsAt (cs.get ⟨i, hi⟩)
            (y + ((cs.take i).map PTree.height).sum) = some (parts.getD i [])) ∧
    (∀ (cs : List PTree) (y : Int) (ps : List GridPos), flattenList cs y = some ps →
      ps.length = panelTotalList cs) ∧
    (∀ g : PanelGroup, PTree.panelTotal (.group g) =
      g.panels.length + (if g.row.isSome then 1 else 0)) ∧
    (∀ (g : PanelGroup) (y : Int),
      PTree.panelsAt (.group g) y =
        some (headerList (g.setY y) ++ (g.setY y).panels)) :=
  ⟨flattenList_blocks, flattenList_length, fun _ => rfl, fun _ _ => rfl⟩

theorem positioning_flatten_structure_witness :
    ([⟨0, 0, 24, 1⟩, ⟨0, 2, 24, 8⟩] : List GridPos).length =
      panelTotalList [PTree.group (PanelGroup.mk [[.SMALL]] [8]
        (some ⟨0, 0, 24, 1⟩) 0 11 [⟨0, 2, 24, 8⟩])] :=
  positioning_flatten_structure.2.1
    [PTree.group (PanelGroup.mk [[.SMALL]] [8] (some ⟨0, 0, 24, 1⟩) 0 11
      [⟨0, 2, 24, 8⟩])] 0 [⟨0, 0, 24, 1⟩, ⟨0, 2, 24, 8⟩] (by decide)

theorem flattenList_append (as : List PTree) :
    ∀ (bs : List PTree) (c : Int),
      flattenList (as ++ bs) c =
        match flattenList as c, flattenList bs (c + heightList as) with
        | some x, some z => some (x ++ z)
        | _, _ => none := by
  induction as with
  | nil =>
    intro bs c
    show flattenList bs c = _
    rw [show heightList [] = 0 from rfl, add_zero,
      show flattenList ([] : List PTree) c = some [] from rfl]
    cases hb : flattenList bs c with
    | none => rfl
    | some z => simp
  | cons a as ih =>
    intro bs c
    show flattenList (a :: (as ++ bs)) c = _
    by_cases hc0 : c < 0
    · simp only [flattenList]
      rw [if_pos hc0, if_pos hc0]
    · simp only [flattenList]
      rw [if_neg hc0, if_neg hc0]
      rw [ih bs (c + PTree.height a)]
      rw [show heightList (a :: as) = PTree.height a + heightList as from rfl]
      rw [show c + (PTree.height a + heightList as) =
            c + PTree.height a + heightList as from by ring]
      cases hp : PTree.panelsAt a c with
      | none => rfl
      | some p0 =>
        cases hq : flattenList as (c + PTree.height a) with
        | none => rfl
        | some x =>
          cases hr : flattenList bs (c + PTree.height a + heightList as) with
          | none => rfl
          | some z => simp

mutual

/-- Every group reachable in the tree has a non-negative stored height
(true of every group the spec's data model admits, since row heights are
at least 1). -/
def PTree.heightsOk : PTree → Bool
  | .group g => decide (0 ≤ g.height)
  | .node cs _ => heightsOkList cs

/-- `PTree.heightsOk` over a child list. -/
def heightsOkList : List PTree → Bool
  | [] => true
  | t :: ts => PTree.heightsOk t && heightsOkList ts

end

mutual

theorem heightsOk_nonneg : ∀ t : PTree, PTree.heightsOk t = true → 0 ≤ PTree.height t
  | .group g, h => by
    have h' : decide (0 ≤ g.height) = true := h
    exact of_decide_eq_true h'
  | .node cs y0, h => heightsOkList_nonneg cs h

theorem heightsOkList_nonneg :
    ∀ cs : List PTree, heightsOkList cs = true → 0 ≤ heightList cs
  | [], _ => le_refl 0
  | t :: ts, h => by
    have hsplit : PTree.heightsOk t = true ∧ heightsOkList ts = true := by
      have h' : (PTree.heightsOk t && heightsOkList ts) = true := h
      exact Bool.and_eq_true_iff.1 h'
    have h1 := heightsOk_nonneg t hsplit.1
    have h2 := heightsOkList_nonneg ts hsplit.2
    show 0 ≤ PTree.height t + heightList ts
    omega

end

theorem flattenList_inline (cs post : List PTree) (y' : Int) (c : Int)
    (hcond : cs ≠ [] ∨ 0 ≤ c) :
    flattenList (PTree.node cs y' :: post) c = flattenList (cs ++ post) c := by
  by_cases hc0 : c < 0
  · have hcs : cs ≠ [] := by
      rcases hcond with h | h
      · exact h
      · omega
    obtain ⟨c0, cs', rfl⟩ := List.exists_cons_of_ne_nil hcs
    rw [List.cons_append]
    simp only [flattenList]
    rw [if_pos hc0, if_pos hc0]
  · simp only [flattenList]
    rw [if_neg hc0]
    rw [flattenList_append cs post c]
    rfl

theorem flattenList_inline_deep (pre : List PTree) :
    ∀ (cs post : List PTree) (y' c : Int),
      (cs ≠ [] ∨ (0 ≤ c ∧ heightsOkList pre = true)) →
      flattenList (pre ++ PTree.node cs y' :: post) c =
        flattenList (pre ++ (cs ++ post)) c := by
  induction pre with
  | nil =>
    intro cs post y' c hcond
    refine flattenList_inline cs post y' c ?_
    rcases hcond with h | h
    · exact Or.inl h
    · exact Or.inr h.1
  | cons p pre' ih =>
    intro cs post y' c hcond
    have hcond' : cs ≠ [] ∨
        (0 ≤ c + PTree.height p ∧ heightsOkList pre' = true) := by
      rcases hcond with h | ⟨hc, hok⟩
      · exact Or.inl h
      · have hsplit : PTree.heightsOk p = true ∧ heightsOkList pre' = true := by
          have h' : (PTree.heightsOk p && heightsOkList pre') = true := hok
          exact Bool.and_eq_true_iff.1 h'
        have hp := heightsOk_nonneg p hsplit.1
        exact Or.inr ⟨by omega, hsplit.2⟩
    rw [List.cons_append, List.cons_append]
    simp only [flattenList]
    by_cases hc0 : c < 0
    · rw [if_pos hc0, if_pos hc0]
    · rw [if_neg hc0, if_neg hc0]
      rw [ih cs post y' (c + PTree.height p) hcond']

/-- **C9**.  Nesting a Positioning Tree as a child produces the same
flattened result as inlining its children directly: the nested tree's
stored origin is overwritten by the cursor, its height is the sum of its
children's heights, and its recursive flattening walks the same cursor
positions as the inlined children would.  (The hypothesis rules out only
the vacuous corner of an *empty* nested tree reached at a negative
cursor, which requires a group with negative height — impossible under
the data model's `height ≥ 1` rows — where the nested `set_y` assert
would fire with no inlined counterpart.) -/
theorem nesting_inline_equiv (pre cs post : List PTree) (y' Y : Int)
    (hcond : cs ≠ [] ∨ (0 ≤ Y ∧ heightsOkList pre = true)) :
    PTree.panels (.node (pre ++ PTree.node cs y' :: post) Y) =
      PTree.panels (.node (pre ++ (cs ++ post)) Y) :=
  flattenList_inline_deep pre cs post y' Y hcond

theorem nesting_inline_equiv_witness :
    PTree.panels (.node ([PTree.group (PanelGroup.mk [[.SMALL]] [8] none 0 9
        [⟨0, 0, 24, 8⟩])] ++ PTree.node [PTree.group (PanelGroup.mk [[.MEDIUM]]
        [4] none 0 5 [⟨0, 0, 24, 4⟩])] 7 :: []) 0) =
      PTree.panels (.node ([PTree.group (PanelGroup.mk [[.SMALL]] [8] none 0 9
        [⟨0, 0, 24, 8⟩])] ++ ([PTree.group (PanelGroup.mk [[.MEDIUM]]
        [4] none 0 5 [⟨0, 0, 24, 4⟩])] ++ [])) 0) :=
  nesting_inline_equiv [PTree.group (PanelGroup.mk [[.SMALL]] [8] none 0 9
      [⟨0, 0, 24, 8⟩])]
    [PTree.group (PanelGroup.mk [[.MEDIUM]] [4] none 0 5 [⟨0, 0, 24, 4⟩])]
    [] 7 0 (Or.inl (List.cons_ne_nil _ _))
